import Mathlib

/-!
Verification of the `json-parquet-merger` core (`src/index.ts`, class
`JsonParquetMerger`) against its natural-language specification.

Shallow embedding conventions:
* A JavaScript runtime value that can occur in a record field is modelled by
  `JsValue`.  JS numbers are modelled by `Rat`; the only numeric operation the
  source performs is `Number.isInteger`, which corresponds to `q.den = 1`.
  A JS `Date` instance is represented by its ISO-8601 serialization (the
  output of `Date.prototype.toJSON`), the only attribute of a `Date` the
  source ever consumes.
* A record (a parsed JSON object) is an insertion-ordered association list
  `JsRecord`; `Object.keys` is `recordFields`, property lookup is `jsGet`
  (absent keys yield `undefinedV`), the `in` operator is `hasKey`.
* File reading and `JSON.parse` are external collaborators: an input file is
  modelled by the outcome of parsing its content, `JFile := Option (List
  JsRecord)` — `none` when `JSON.parse` throws, otherwise the record list
  after the source's array wrap (`Array.isArray(parsed) ? parsed : [parsed]`,
  so a single-object file is a one-element list and `[]` parses to `some []`).
* The Parquet sink (`ParquetWriter`) is modelled as the ordered trace of
  `appendRow` calls; for the close/masking claim a failable sink behaviour is
  threaded explicitly with JS `try`/`finally` semantics.
-/

namespace JPM

/-- Model of a JavaScript value as it can occur in a field of a parsed JSON
record (plus `undefinedV` and `Date`, which the transformer and tests exercise).
A `Date` carries its ISO-8601 serialization string. -/
inductive JsValue where
  | undefinedV
  | null
  | str (s : String)
  | num (q : Rat)
  | bool (b : Bool)
  | date (iso : String)
  | obj (fields : List (String × JsValue))
  | arr (elems : List JsValue)
deriving Repr

/-- A parsed JSON record: `Object.entries` of a JS object, in insertion
order.  Keys of a real JS object are distinct. -/
abbrev JsRecord := List (String × JsValue)

/-- The outcome of reading and `JSON.parse`-ing one input file, after the
source's array wrap: `none` means the content could not be parsed as JSON;
`some recs` is the list of records (`Array.isArray(parsed) ? parsed :
[parsed]`). -/
abbrev JFile := Option (List JsRecord)

/-- Property lookup on a record (first binding wins; keys of a JS object are
distinct, so this matches `record[key]` up to the absent case). -/
def lookupField : JsRecord → String → Option JsValue
  | [], _ => none
  | (k', v) :: rest, k => if k' = k then some v else lookupField rest k

/-- The JS `in` operator: `key in record` is key presence (an explicitly
`undefined`-valued key still counts as present). -/
def hasKey (r : JsRecord) (k : String) : Bool := (lookupField r k).isSome

/-- JS property access `record[key]`: the stored value, or `undefined` when
the key is absent. -/
def jsGet (r : JsRecord) (k : String) : JsValue := (lookupField r k).getD .undefinedV

/-- The JS `Object.keys(record)`. -/
def recordFields (r : JsRecord) : List String := r.map Prod.fst

/-- The source's nullish guard `value === null || value === undefined`. -/
def isNullish : JsValue → Bool
  | .null => true
  | .undefinedV => true
  | _ => false

/-- Nested-structure test: the values the transformer serializes
(`typeof value === 'object' && !(value instanceof Date)`, with `null`
already excluded). -/
def isNested : JsValue → Bool
  | .obj _ => true
  | .arr _ => true
  | _ => false

/-! ### JSON.stringify (external JS builtin, modelled)

`JSON.stringify` as called by `transformRecord` on object/array values.
String escaping follows the JSON quoting rules; number rendering is exact on
integral values (`toString` of the integer) — for non-integral values the JS
shortest-round-trip decimal algorithm is abstracted by an exact
`num.den`-based rendering, which no theorem below depends on. -/

/-- Hexadecimal digit for a value below 16. -/
def hexDigit (n : Nat) : Char :=
  if n < 10 then Char.ofNat (48 + n) else Char.ofNat (87 + n)

/-- JSON escaping of a single character inside a quoted string. -/
def escapeChar (c : Char) : String :=
  if c = '"' then "\\\""
  else if c = '\\' then "\\\\"
  else if c = '\x08' then "\\b"
  else if c = '\x0c' then "\\f"
  else if c = '\n' then "\\n"
  else if c = '\r' then "\\r"
  else if c = '\t' then "\\t"
  else if c.toNat < 32 then
    "\\u00" ++ String.mk [hexDigit (c.toNat / 16), hexDigit (c.toNat % 16)]
  else String.singleton c

/-- JSON quoting of a string value. -/
def quoteString (s : String) : String :=
  "\"" ++ String.join (s.toList.map escapeChar) ++ "\""

/-- Rendering of a JS number by `JSON.stringify`.  Exact for integral values;
non-integral values are rendered as an exact `num/den` pair (an abstraction
of the JS shortest-decimal algorithm, unused by the theorems below). -/
def numToJson (q : Rat) : String :=
  if q.den = 1 then toString q.num
  else toString q.num ++ "/" ++ toString q.den

mutual

/-- Model of the JS builtin `JSON.stringify` on one value; `none` is the
`undefined` result (an `undefined` object member is omitted, an `undefined`
array element serializes as `null`).  A `Date` serializes via `toJSON` to its
ISO string. -/
def jsValueToJson : JsValue → Option String
  | .undefinedV => none
  | .null => some "null"
  | .str s => some (quoteString s)
  | .num q => some (numToJson q)
  | .bool b => some (cond b "true" "false")
  | .date iso => some (quoteString iso)
  | .obj l => some ("\x7b" ++ String.intercalate "," (jsObjMembers l) ++ "\x7d")
  | .arr l => some ("[" ++ String.intercalate "," (jsArrElems l) ++ "]")

/-- Serialized `"key":value` members of an object, `undefined`-valued members
omitted, in insertion order. -/
def jsObjMembers : List (String × JsValue) → List String
  | [] => []
  | (k, v) :: rest =>
      match jsValueToJson v with
      | none => jsObjMembers rest
      | some s => (quoteString k ++ ":" ++ s) :: jsObjMembers rest

/-- Serialized elements of an array, `undefined` elements rendered `null`. -/
def jsArrElems : List JsValue → List String
  | [] => []
  | v :: rest => ((jsValueToJson v).getD "null") :: jsArrElems rest

end

/-- Value of `JSON.stringify` at a value on which it returns a string (the
source only applies it to objects and arrays, where this always holds). -/
def jsonStringify (v : JsValue) : String := (jsValueToJson v).getD "null"

/-! ### Record Transformer (`JsonParquetMerger.transformRecord`) -/

/-- Per-value branch structure of `transformRecord`'s loop body:
nullish values become `null`; a non-`Date` object or array becomes its
`JSON.stringify` text; everything else (string, number, boolean, `Date`)
passes through unchanged. -/
def transformValue : JsValue → JsValue
  | .null => .null
  | .undefinedV => .null
  | .obj l => .str (jsonStringify (.obj l))
  | .arr l => .str (jsonStringify (.arr l))
  | v => v

/-- Embedding of `JsonParquetMerger.transformRecord`: rebuilds the record
with each value transformed, preserving field order
(`for (const [key, value] of Object.entries(record))`). -/
def transformRecord (r : JsRecord) : JsRecord :=
  r.map (fun p => (p.1, transformValue p.2))

/-! ### Schema data model -/

/-- Parquet primitive type names used by the source
(`'UTF8' | 'INT64' | 'DOUBLE' | 'BOOLEAN' | 'TIMESTAMP_MILLIS'`).
In the spec's vocabulary TEXT = `UTF8` and TIMESTAMP = `TIMESTAMP_MILLIS`. -/
inductive PType where
  | UTF8
  | INT64
  | DOUBLE
  | BOOLEAN
  | TIMESTAMP_MILLIS
deriving DecidableEq, Repr

/-- One schema entry object as built by `inferSchema`, e.g.
`\x7btype: 'INT64', optional: true\x7d`.  The source never writes a
`compression` property into these objects (its `ProcessingOptions` has no
compression member), so `compression = none` models the absent key. -/
structure FieldEntry where
  type : PType
  optional : Bool
  compression : Option String
deriving DecidableEq, Repr

/-- The `schemaFields` object handed to `new ParquetSchema(...)`: field
names to entries, in insertion order. -/
abbrev Schema := List (String × FieldEntry)

/-- Inference failure, matching the two `throw new Error(...)` sites of
`inferSchema`: a pass-1 JSON parse failure (with the index of the offending
file) or the empty-field-union error. -/
inductive SchemaError where
  | parseError (fileIdx : Nat)
  | noFields
deriving DecidableEq, Repr

/-- Default entry used when every value of a field is nullish:
`inferredType || \x7btype: 'UTF8', optional: true\x7d`. -/
def defaultEntry : FieldEntry := ⟨.UTF8, true, none⟩

/-- Classification branch of `inferSchema`'s pass-2 loop body, applied to a
non-nullish value: `typeof` string / number (integral vs not, per
`Number.isInteger`) / boolean, then `instanceof Date`, else (object or
array) `UTF8`. -/
def classifyValue : JsValue → FieldEntry
  | .str _ => ⟨.UTF8, true, none⟩
  | .num q => if q.den = 1 then ⟨.INT64, true, none⟩ else ⟨.DOUBLE, true, none⟩
  | .bool _ => ⟨.BOOLEAN, true, none⟩
  | .date _ => ⟨.TIMESTAMP_MILLIS, true, none⟩
  | _ => ⟨.UTF8, true, none⟩

/-- Pass-2 inner loop over one file's records: the first non-nullish value
of `field` classifies it (`break fileLoop`); nullish values are passed
over. -/
def scanRecords (field : String) : List JsRecord → Option FieldEntry
  | [] => none
  | r :: rest =>
      let v := jsGet r field
      if isNullish v then scanRecords field rest else some (classifyValue v)

/-- Pass-2 outer loop over the files for one field: a file that does not
parse is skipped (`continue`), otherwise its records are scanned; the first
classification stops the scan. -/
def scanFiles (field : String) : List JFile → Option FieldEntry
  | [] => none
  | none :: rest => scanFiles field rest
  | some recs :: rest =>
      match scanRecords field recs with
      | some e => some e
      | none => scanFiles field rest

/-- Insertion into the ordered field-name set `allFields` (`Set.add`: a name
already present is not added again, otherwise it goes to the end). -/
def addField (acc : List String) (k : String) : List String :=
  if k ∈ acc then acc else acc ++ [k]

/-- Union of a list of field names into the ordered set. -/
def addFields (acc : List String) (ks : List String) : List String :=
  ks.foldl addField acc

/-- Pass 1 of `inferSchema`: walk the files in order (`fileIdx` tracks the
position for the error), throw on the first unparsable file, skip files with
zero records, and union every record's field names into `allFields`. -/
def collectPass1 : List JFile → Nat → List String → Except SchemaError (List String)
  | [], _, acc => .ok acc
  | none :: _, fileIdx, _ => .error (.parseError fileIdx)
  | some recs :: rest, fileIdx, acc =>
      if recs.isEmpty then collectPass1 rest (fileIdx + 1) acc
      else collectPass1 rest (fileIdx + 1)
        (recs.foldl (fun a r => addFields a (recordFields r)) acc)

/-- Embedding of `JsonParquetMerger.inferSchema`: pass 1 collects the ordered
field-name union (fatal on a parse failure), the empty union raises the
"no fields" error, and pass 2 types each field from its first non-nullish
value across all files, defaulting to `UTF8`. -/
def inferSchema (files : List JFile) : Except SchemaError Schema :=
  match collectPass1 files 0 [] with
  | .error e => .error e
  | .ok allFields =>
      if allFields.isEmpty then .error .noFields
      else .ok (allFields.map (fun name => (name, (scanFiles name files).getD defaultEntry)))

/-! ### Schema Validator (`JsonParquetMerger.validateSchema`) -/

/-- Run configuration as the core consumes it.  Mirrors the source's
`ProcessingOptions` members that the core logic reads (`input`, `output`
and `pattern` are consumed by the excluded discovery layer; the interface
has no compression member). -/
structure Options where
  validate : Bool
  batchSize : Nat
deriving Repr

/-- The fields of the schema a record lacks:
`schemaKeys.filter(key => !(key in record))`. -/
def missingOf (schemaKeys : List String) (r : JsRecord) : List String :=
  schemaKeys.filter (fun k => !(hasKey r k))

/-- The fields of a record beyond the schema:
`recordKeys.filter(key => !schemaKeys.includes(key))`. -/
def extraOf (schemaKeys : List String) (r : JsRecord) : List String :=
  (recordFields r).filter (fun k => !(schemaKeys.contains k))

/-- Warning lines `validateSchema` emits for one record (`console.warn`),
naming the offending fields: the missing-fields line, then the
extra-fields line, each only when non-empty. -/
def recordWarnings (schemaKeys : List String) (r : JsRecord) : List String :=
  (if (missingOf schemaKeys r).isEmpty then []
   else ["Missing fields in record: " ++ String.intercalate ", " (missingOf schemaKeys r)])
  ++ (if (extraOf schemaKeys r).isEmpty then []
      else ["Extra fields in record: " ++ String.intercalate ", " (extraOf schemaKeys r)])

/-- Loop of `validateSchema` over the batch: the valid flag (cleared by any
record with missing or extra fields, never reset) paired with the warning
lines in emission order. -/
def validateRecords (schemaKeys : List String) : List JsRecord → Bool × List String
  | [] => (true, [])
  | r :: rest =>
      let rec' := validateRecords schemaKeys rest
      (((missingOf schemaKeys r).isEmpty && (extraOf schemaKeys r).isEmpty) && rec'.1,
       recordWarnings schemaKeys r ++ rec'.2)

/-- Embedding of `JsonParquetMerger.validateSchema`: with the feature
disabled it returns `true` at once with no comparison and no warnings;
enabled, it checks every record's field names against the schema's. -/
def validateSchema (opts : Options) (schemaKeys : List String)
    (records : List JsRecord) : Bool × List String :=
  if !opts.validate then (true, []) else validateRecords schemaKeys records

/-! ### Batch Writer Pipeline (`JsonParquetMerger.processFiles`), pure form

This form models the sink as the trace of successful `appendRow` calls (no
sink failures), which is the regime of the skipping and batch-accounting
claims.  The failable-sink form used by the close/masking claim follows
below. -/

/-- Pipeline state: the accumulating `currentBatch`, the rows the sink
received (`appendRow` trace, in order), the sizes of the `writeBatch` calls
(the "Wrote batch of N records" diagnostics), and `processedCount`. -/
structure PipeState where
  batch : List JsRecord
  sink : List JsRecord
  flushes : List Nat
  processedCount : Nat
deriving Repr

/-- Embedding of `JsonParquetMerger.writeBatch`: append every record of the
batch to the sink in order, add the batch's length to `processedCount`, and
log the batch size. -/
def writeBatch (st : PipeState) (b : List JsRecord) : PipeState :=
  { st with sink := st.sink ++ b,
            flushes := st.flushes ++ [b.length],
            processedCount := st.processedCount + b.length }

/-- Per-record step of `processFiles`: transform the record, push it onto
`currentBatch`, and flush (then reset the batch) once the batch length
reaches `batchSize`. -/
def stepRecord (batchSize : Nat) (st : PipeState) (r : JsRecord) : PipeState :=
  let st1 := { st with batch := st.batch ++ [transformRecord r] }
  if batchSize ≤ st1.batch.length then { writeBatch st1 st1.batch with batch := [] }
  else st1

/-- Per-file step of `processFiles`: a file whose content does not parse is
logged and skipped (`continue`); a file whose batch fails validation is
logged and skipped; otherwise every record is processed in order. -/
def processFile (opts : Options) (schemaKeys : List String)
    (st : PipeState) (f : JFile) : PipeState :=
  match f with
  | none => st
  | some recs =>
      if (validateSchema opts schemaKeys recs).1 then
        recs.foldl (stepRecord opts.batchSize) st
      else st

/-- Embedding of `JsonParquetMerger.processFiles` (sink never failing):
process the files in order, then flush any non-empty remaining batch. -/
def processFiles (opts : Options) (schemaKeys : List String)
    (files : List JFile) : PipeState :=
  let final := files.foldl (processFile opts schemaKeys)
    { batch := [], sink := [], flushes := [], processedCount := 0 }
  if final.batch.isEmpty then final else writeBatch final final.batch

/-- A file is admitted by the write phase when its content parses and its
record batch passes validation. -/
def admitsFile (opts : Options) (schemaKeys : List String) : JFile → Bool
  | none => false
  | some recs => (validateSchema opts schemaKeys recs).1

/-- The records of the admitted files, in file-then-record order. -/
def admittedRecords (opts : Options) (schemaKeys : List String)
    (files : List JFile) : List JsRecord :=
  (files.filter (admitsFile opts schemaKeys)).flatMap (fun f => f.getD [])

/-! ### Batch Writer Pipeline with a failable sink

The same `processFiles` body, with the sink collaborator's failure modes
made explicit, to settle the close/masking claim.  The body is the source's
`try` block (an `appendRow` rejection propagates out of the record loop);
the `finally` clause then awaits `writer.close()`, and — by JavaScript
`try`/`finally` semantics — an exception thrown by the `finally` block
replaces any pending exception from the body. -/

/-- Failure modes of the sink collaborator: which `appendRow` calls (by
global call index) reject, and whether `close()` rejects. -/
structure SinkBehavior where
  appendFails : Nat → Bool
  closeFails : Bool

/-- The pipeline's fatal error outcomes: a sink `appendRow` rejection
(carrying the index of the failing call) or a sink `close()` rejection. -/
inductive PipeError where
  | sinkAppend (callIdx : Nat)
  | sinkClose
deriving DecidableEq, Repr

/-- Sink-facing pipeline state with the failable writer: the rows the sink
accepted, the index of the next `appendRow` call, `currentBatch`, and
`processedCount`. -/
structure WState where
  rows : List JsRecord
  nextCall : Nat
  batch : List JsRecord
  processedCount : Nat

/-- One `appendRow` call against the failable sink. -/
def appendRow (sb : SinkBehavior) (st : WState) (r : JsRecord) :
    Except PipeError WState :=
  if sb.appendFails st.nextCall then .error (.sinkAppend st.nextCall)
  else .ok { st with rows := st.rows ++ [r], nextCall := st.nextCall + 1 }

/-- Embedding of `writeBatch` against the failable sink: append each record
in order (stopping at the first rejection), then add the batch length to
the counter. -/
def writeBatchE (sb : SinkBehavior) (st : WState) (b : List JsRecord) :
    Except PipeError WState := do
  let st' ← b.foldlM (appendRow sb) st
  return { st' with processedCount := st'.processedCount + b.length }

/-- Per-record step of the `try` block with the failable sink. -/
def stepRecordE (sb : SinkBehavior) (batchSize : Nat) (st : WState)
    (r : JsRecord) : Except PipeError WState := do
  let st1 := { st with batch := st.batch ++ [transformRecord r] }
  if batchSize ≤ st1.batch.length then
    let st2 ← writeBatchE sb st1 st1.batch
    return { st2 with batch := [] }
  else return st1

/-- Per-file step of the `try` block: parse and validation failures skip the
file; sink failures propagate. -/
def processFileE (sb : SinkBehavior) (opts : Options) (schemaKeys : List String)
    (st : WState) (f : JFile) : Except PipeError WState :=
  match f with
  | none => .ok st
  | some recs =>
      if (validateSchema opts schemaKeys recs).1 then
        recs.foldlM (stepRecordE sb opts.batchSize) st
      else .ok st

/-- The `try` block of `processFiles`: process the files in order, then
flush any non-empty remaining batch.  Returns the error that was pending
when control reached the `finally` clause, if any. -/
def processBody (sb : SinkBehavior) (opts : Options) (schemaKeys : List String)
    (files : List JFile) : Except PipeError WState := do
  let final ← files.foldlM (processFileE sb opts schemaKeys)
    { rows := [], nextCall := 0, batch := [], processedCount := 0 }
  if final.batch.isEmpty then return final else
    let st' ← writeBatchE sb final final.batch
    return { st' with batch := [] }

/-- Outcome of one `processFiles` run with the failable sink: the propagated
result and whether `close()` was invoked. -/
structure RunOutcome where
  result : Except PipeError Unit
  closeCalled : Bool

/-- Embedding of `JsonParquetMerger.processFiles` with the failable sink:
the body runs inside `try`; the `finally` clause always awaits
`writer.close()`, and a `close()` rejection becomes the propagated error —
by JS `try`/`finally` semantics it replaces any pending body error. -/
def runProcessFiles (sb : SinkBehavior) (opts : Options)
    (schemaKeys : List String) (files : List JFile) : RunOutcome :=
  let body := processBody sb opts schemaKeys files
  { result := if sb.closeFails then .error .sinkClose else body.map (fun _ => ()),
    closeCalled := true }

/-! ### Specification-side definitions

These definitions follow the wording of the specification and the claims,
not the source; the theorems below compare them with the source-derived
definitions above. -/

/-- The records a file contributes to the scan (an unparsable file
contributes none). -/
def fileRecords (f : JFile) : List JsRecord := f.getD []

/-- Spec wording (I2/C1): the values observed for a field, "scanning files
in input order and records within each file in order". -/
def scanValues (files : List JFile) (field : String) : List JsValue :=
  (files.flatMap fileRecords).map (fun r => jsGet r field)

/-- Spec wording (I2/C1): "the first value for that field that is neither
null nor undefined" in scan order. -/
def specFirstNonNull (files : List JFile) (field : String) : Option JsValue :=
  (scanValues files field).find? (fun v => !isNullish v)

/-- Spec wording (C1): the claimed classification of a single non-null
value — string→TEXT, integral number→INT64, non-integral number→DOUBLE,
boolean→BOOLEAN, date/time→TIMESTAMP, object/list→TEXT (in the source's
Parquet vocabulary, TEXT = `UTF8`, TIMESTAMP = `TIMESTAMP_MILLIS`).
Nullish values never reach this classification. -/
def specClassify : JsValue → PType
  | .str _ => .UTF8
  | .num q => if q.den = 1 then .INT64 else .DOUBLE
  | .bool _ => .BOOLEAN
  | .date _ => .TIMESTAMP_MILLIS
  | .obj _ => .UTF8
  | .arr _ => .UTF8
  | .null => .UTF8
  | .undefinedV => .UTF8

/-- Spec wording (C1): the claimed semantic type of a field — the
classification of the first non-nullish value in scan order, TEXT when every
observed value is nullish. -/
def specFieldType (files : List JFile) (field : String) : PType :=
  match specFirstNonNull files field with
  | some v => specClassify v
  | none => .UTF8

/-- Spec wording (C2/C5): every field name observed in any input record
across all files, as a stream in scan order (files in input order, records
in file order, a record's own keys in insertion order). -/
def observedFields (files : List JFile) : List String :=
  files.flatMap (fun f => (fileRecords f).flatMap recordFields)

/-- Spec wording (C5): "first-encounter order across the union" — deduplicate
a name stream keeping each name at its first occurrence. -/
def firstEncounter (ks : List String) : List String := ks.foldl addField []

/-! ### Concrete inputs and auxiliary state predicates -/

/-- Sample input: file 1 has a null `score` before file 2 supplies `85`. -/
def sampleFiles : List JFile :=
  [some [[("id", .num 1), ("score", .null)]], some [[("score", .num 85)]]]

/-- Schema the source infers over `sampleFiles`. -/
def sampleSchema : Schema :=
  [("id", ⟨.INT64, true, none⟩), ("score", ⟨.INT64, true, none⟩)]

/-- Material of a pipeline state: rows already in the sink followed by the
batch still accumulating. -/
def mat (st : PipeState) : List JsRecord := st.sink ++ st.batch

/-- Batching invariant of the pipeline loop: the accumulating batch is
strictly below the batch size, every flush so far was a full batch of
exactly `B` rows, the sink holds exactly the flushed rows, and the run
counter equals the number of rows in the sink. -/
def BatchInv (B : Nat) (st : PipeState) : Prop :=
  st.batch.length < B
  ∧ st.flushes = List.replicate st.flushes.length B
  ∧ st.sink.length = B * st.flushes.length
  ∧ st.processedCount = st.sink.length

/-- Sample write-phase input: three records across two files. -/
def pipeFiles : List JFile :=
  [some [[("a", .num 1)], [("a", .num 2)]], some [[("a", .num 3)]]]

/-- Sink behaviour of the masking scenario: every `appendRow` call rejects
and `close()` rejects. -/
def sinkAllFail : SinkBehavior := ⟨fun _ => true, true⟩

/-- Sink behaviour with no failures. -/
def sinkOk : SinkBehavior := ⟨fun _ => false, false⟩

/-- One admitted file with one record, enough to trigger a flush at batch
size 1. -/
def oneRecordFile : List JFile := [some [[("a", .num 1)]]]

/-! ## Theorems -/


/-! ### Shared concrete inputs for the witnesses -/

theorem sample_ok : inferSchema sampleFiles = .ok sampleSchema := by rfl

/-! ### Record Transformer lemmas -/

theorem transformValue_flat (v : JsValue) (h : isNested v = false) :
    transformValue (transformValue v) = transformValue v := by
  cases v <;> simp_all [transformValue, isNested]

/-- C4: for every record with no nested (object or list) values, the
transformer is idempotent. -/
theorem c4_transform_idempotent_on_flat (r : JsRecord)
    (h : ∀ p ∈ r, isNested p.2 = false) :
    transformRecord (transformRecord r) = transformRecord r := by
  unfold transformRecord
  rw [List.map_map]
  exact List.map_congr_left fun p hp => by
    simp only [Function.comp_apply]
    rw [transformValue_flat p.2 (h p hp)]

theorem c4_witness :
    transformRecord (transformRecord
      [("id", .num 1), ("name", .str "x"), ("flag", .bool true), ("gone", .null)]) =
    transformRecord
      [("id", .num 1), ("name", .str "x"), ("flag", .bool true), ("gone", .null)] :=
  c4_transform_idempotent_on_flat _ (by
    intro p hp
    simp only [List.mem_cons, List.not_mem_nil, or_false] at hp
    rcases hp with h | h | h | h <;> subst h <;> rfl)

/-- C3: the transformer rules. -/
theorem c3_transform_rules :
    (∀ r : JsRecord, transformRecord r = r.map (fun p => (p.1, transformValue p.2)))
    ∧ transformValue .null = .null
    ∧ transformValue .undefinedV = .null
    ∧ (∀ iso, transformValue (.date iso) = .date iso)
    ∧ (∀ l, transformValue (.obj l) = .str (jsonStringify (.obj l)))
    ∧ (∀ l, transformValue (.arr l) = .str (jsonStringify (.arr l)))
    ∧ (∀ s, transformValue (.str s) = .str s)
    ∧ (∀ q, transformValue (.num q) = .num q)
    ∧ (∀ b, transformValue (.bool b) = .bool b)
    ∧ transformRecord [("a", .obj [("x", .num 1)])] =
        [("a", .str (jsonStringify (.obj [("x", .num 1)])))]
    ∧ jsonStringify (.obj [("x", .num 1)]) = "\x7b\"x\":1\x7d" :=
  ⟨fun _ => rfl, rfl, rfl, fun _ => rfl, fun _ => rfl, fun _ => rfl,
   fun _ => rfl, fun _ => rfl, fun _ => rfl, rfl, rfl⟩

/-! ### Classification lemmas -/

theorem classifyValue_optional (v : JsValue) :
    (classifyValue v).optional = true ∧ (classifyValue v).compression = none := by
  cases v
  case num q => by_cases h : q.den = 1 <;> simp [classifyValue, h]
  all_goals exact ⟨rfl, rfl⟩

theorem scanRecords_shape (field : String) (recs : List JsRecord) (e : FieldEntry)
    (h : scanRecords field recs = some e) : ∃ v, e = classifyValue v := by
  induction recs with
  | nil => simp [scanRecords] at h
  | cons r rest ih =>
      unfold scanRecords at h
      by_cases hn : isNullish (jsGet r field)
      · simp only [hn, if_true] at h
        exact ih h
      · simp only [hn, if_false] at h
        exact ⟨jsGet r field, (Option.some_inj.mp h).symm⟩

theorem scanFiles_shape (field : String) (files : List JFile) (e : FieldEntry)
    (h : scanFiles field files = some e) : ∃ v, e = classifyValue v := by
  induction files with
  | nil => simp [scanFiles] at h
  | cons f rest ih =>
      cases f with
      | none => exact ih h
      | some recs =>
          unfold scanFiles at h
          cases hs : scanRecords field recs with
          | none => rw [hs] at h; exact ih h
          | some e' =>
              rw [hs] at h
              exact (Option.some_inj.mp h) ▸ scanRecords_shape field recs e' hs

/-- C9 theorem: every schema entry the source builds is `optional: true` and
carries no compression tag at all (the entry object has no `compression`
property and `ProcessingOptions` has no compression member). -/
theorem c9_schema_entries_untagged (files : List JFile) (s : Schema)
    (hok : inferSchema files = .ok s) :
    ∀ p ∈ s, p.2.optional = true ∧ p.2.compression = none := by
  intro p hp
  cases hc : collectPass1 files 0 [] with
  | error e => simp [inferSchema, hc] at hok
  | ok allFields =>
      simp only [inferSchema, hc] at hok
      by_cases he : allFields.isEmpty
      · simp [he] at hok
      · rw [if_neg he] at hok
        injection hok with hok
        subst hok
        obtain ⟨name, _, hpe⟩ := List.mem_map.mp hp
        cases hs : scanFiles name files with
        | none =>
            rw [← hpe]
            simp [hs, defaultEntry]
        | some e =>
            obtain ⟨v, hv⟩ := scanFiles_shape name files e hs
            rw [← hpe]
            simp only [hs, Option.getD_some]
            exact hv ▸ classifyValue_optional v

theorem c9_witness :
    (FieldEntry.mk .INT64 true none).optional = true ∧
    (FieldEntry.mk .INT64 true none).compression = none :=
  c9_schema_entries_untagged sampleFiles sampleSchema sample_ok
    ("score", ⟨.INT64, true, none⟩) (by decide)

/-! ### Schema Inference: pass-2 refinement lemmas (claim C1) -/

theorem classifyValue_type (v : JsValue) :
    (classifyValue v).type = specClassify v := by
  cases v
  case num q => by_cases h : q.den = 1 <;> simp [classifyValue, specClassify, h]
  all_goals rfl

theorem scanRecords_eq_find (field : String) (recs : List JsRecord) :
    scanRecords field recs =
      ((recs.map (fun r => jsGet r field)).find? (fun v => !isNullish v)).map
        classifyValue := by
  induction recs with
  | nil => rfl
  | cons r rest ih =>
      by_cases hn : isNullish (jsGet r field)
      · simp [scanRecords, hn, List.find?_cons, ih]
      · simp [scanRecords, hn, List.find?_cons]

theorem scanFiles_eq_find (field : String) (files : List JFile) :
    scanFiles field files = (specFirstNonNull files field).map classifyValue := by
  induction files with
  | nil => rfl
  | cons f rest ih =>
      cases f with
      | none =>
          have h1 : scanFiles field (none :: rest) = scanFiles field rest := rfl
          rw [h1, ih]
          simp [specFirstNonNull, scanValues, fileRecords]
      | some recs =>
          simp only [scanFiles, scanRecords_eq_find]
          simp only [specFirstNonNull, scanValues, fileRecords, List.flatMap_cons,
            Option.getD_some, List.map_append, List.find?_append]
          cases hf : (recs.map (fun r => jsGet r field)).find? (fun v => !isNullish v) with
          | none =>
              simp only [Option.map_none', hf, Option.none_orElse]
              exact ih
          | some v => simp [hf]

/-- C1: in every successfully inferred schema, a field's type is the
classification (string→TEXT, integral number→INT64, non-integral
number→DOUBLE, boolean→BOOLEAN, date/time→TIMESTAMP, object/list→TEXT) of
the first non-null, non-undefined value observed for it, scanning files in
input order and records in file order; TEXT if every observed value is
nullish. -/
theorem c1_inferred_type_first_non_null (files : List JFile) (s : Schema)
    (field : String) (e : FieldEntry)
    (hok : inferSchema files = .ok s) (hmem : (field, e) ∈ s) :
    e.type = specFieldType files field := by
  cases hc : collectPass1 files 0 [] with
  | error err => simp [inferSchema, hc] at hok
  | ok allFields =>
      simp only [inferSchema, hc] at hok
      by_cases he : allFields.isEmpty
      · simp [he] at hok
      · rw [if_neg he] at hok
        injection hok with hok
        subst hok
        obtain ⟨name, _, hpe⟩ := List.mem_map.mp hmem
        obtain ⟨hn, hev⟩ : name = field ∧ (scanFiles name files).getD defaultEntry = e :=
          ⟨congrArg Prod.fst hpe, congrArg Prod.snd hpe⟩
        subst hn
        rw [← hev]
        have hsf := scanFiles_eq_find name files
        cases hfind : specFirstNonNull files name with
        | none =>
            rw [hfind] at hsf
            simp only [Option.map_none'] at hsf
            rw [hsf]
            simp [specFieldType, hfind, defaultEntry]
        | some v =>
            rw [hfind] at hsf
            simp only [Option.map_some'] at hsf
            rw [hsf]
            simp only [Option.getD_some, specFieldType, hfind]
            exact classifyValue_type v

theorem c1_witness :
    (FieldEntry.mk .INT64 true none).type = specFieldType sampleFiles "score" :=
  c1_inferred_type_first_non_null sampleFiles sampleSchema "score"
    ⟨.INT64, true, none⟩ sample_ok (by decide)

/-! ### Schema Inference: pass-1 lemmas (claims C2 and C5) -/

theorem addFields_append (acc : List String) (ks₁ ks₂ : List String) :
    addFields acc (ks₁ ++ ks₂) = addFields (addFields acc ks₁) ks₂ := by
  unfold addFields
  rw [List.foldl_append]

theorem foldl_records_addFields (recs : List JsRecord) (acc : List String) :
    recs.foldl (fun a r => addFields a (recordFields r)) acc =
      addFields acc (recs.flatMap recordFields) := by
  induction recs generalizing acc with
  | nil => rfl
  | cons r rest ih => rw [List.foldl_cons, List.flatMap_cons, addFields_append, ih]

theorem mem_addField (acc : List String) (k k' : String) :
    k ∈ addField acc k' ↔ k ∈ acc ∨ k = k' := by
  unfold addField
  by_cases h : k' ∈ acc
  · rw [if_pos h]
    exact ⟨Or.inl, fun h2 => h2.elim id (fun e => e ▸ h)⟩
  · rw [if_neg h]
    simp

theorem mem_addFields (ks : List String) (acc : List String) (k : String) :
    k ∈ addFields acc ks ↔ k ∈ acc ∨ k ∈ ks := by
  induction ks generalizing acc with
  | nil => simp [addFields]
  | cons a ks ih =>
      have h1 : addFields acc (a :: ks) = addFields (addField acc a) ks := rfl
      rw [h1, ih, mem_addField]
      simp only [List.mem_cons]
      tauto

theorem nodup_addField (acc : List String) (k : String) (h : acc.Nodup) :
    (addField acc k).Nodup := by
  unfold addField
  by_cases hm : k ∈ acc
  · rw [if_pos hm]; exact h
  · rw [if_neg hm]
    simp [List.nodup_append, h, hm]

theorem nodup_addFields (ks : List String) (acc : List String) (h : acc.Nodup) :
    (addFields acc ks).Nodup := by
  induction ks generalizing acc with
  | nil => exact h
  | cons a ks ih => exact ih (addField acc a) (nodup_addField acc a h)

/-- Full characterization of pass 1: with every file parsable it returns the
ordered field union; otherwise it raises `parseError` at the first
unparsable file. -/
theorem collectPass1_cases (files : List JFile) (fileIdx : Nat) (acc : List String) :
    (none ∉ files ∧
      collectPass1 files fileIdx acc = .ok (addFields acc (observedFields files)))
    ∨ (∃ j, files[j]? = some none ∧ (∀ k, k < j → files[k]? ≠ some none) ∧
        collectPass1 files fileIdx acc = .error (.parseError (fileIdx + j))) := by
  induction files generalizing fileIdx acc with
  | nil =>
      left
      exact ⟨List.not_mem_nil _, rfl⟩
  | cons f rest ih =>
      cases f with
      | none =>
          right
          refine ⟨0, by simp, by omega, ?_⟩
          simp [collectPass1]
      | some recs =>
          have hstep : collectPass1 (some recs :: rest) fileIdx acc =
              collectPass1 rest (fileIdx + 1)
                (addFields acc (recs.flatMap recordFields)) := by
            by_cases he : recs.isEmpty
            · have : recs = [] := List.isEmpty_iff.mp he
              subst this
              rfl
            · simp only [collectPass1, if_neg he, foldl_records_addFields]
          have hobs : observedFields (some recs :: rest) =
              recs.flatMap recordFields ++ observedFields rest := by
            simp [observedFields, fileRecords]
          rcases ih (fileIdx + 1) (addFields acc (recs.flatMap recordFields)) with
            ⟨hnm, heq⟩ | ⟨j, hj, hfirst, heq⟩
          · left
            constructor
            · intro hmem
              rcases List.mem_cons.mp hmem with h | h
              · exact Option.noConfusion h
              · exact hnm h
            · rw [hstep, heq, hobs, addFields_append]
          · right
            refine ⟨j + 1, by simpa using hj, ?_, ?_⟩
            · intro k hk
              cases k with
              | zero => simp
              | succ k' =>
                  have : k' < j := by omega
                  simpa using hfirst k' this
            · rw [hstep, heq]
              congr 1
              congr 1
              omega

theorem addFields_nil_iff (ks : List String) :
    addFields [] ks = [] ↔ ks = [] := by
  constructor
  · intro h
    by_contra hne
    obtain ⟨k, hk⟩ := List.exists_mem_of_ne_nil ks hne
    have hm := (mem_addFields ks [] k).mpr (Or.inr hk)
    rw [h] at hm
    exact List.not_mem_nil k hm
  · rintro rfl
    rfl

/-- C2: schema inference fails exactly on a pass-1 parse failure (raised at
the first unparsable file, which is not skipped) or on an empty field union
(the "no fields" error); otherwise it produces a schema. -/
theorem c2_inference_failure_iff (files : List JFile) :
    ((∃ s, inferSchema files = .ok s) ↔ (none ∉ files ∧ observedFields files ≠ []))
    ∧ (inferSchema files = .error .noFields ↔
        (none ∉ files ∧ observedFields files = []))
    ∧ (∀ i, inferSchema files = .error (.parseError i) ↔
        (files[i]? = some none ∧ ∀ k, k < i → files[k]? ≠ some none)) := by
  rcases collectPass1_cases files 0 [] with ⟨hnm, heq⟩ | ⟨j, hj, hfirst, heq⟩
  · by_cases hobs : observedFields files = []
    · have hie : (addFields [] (observedFields files)).isEmpty = true :=
        List.isEmpty_iff.mpr ((addFields_nil_iff _).mpr hobs)
      have hinf : inferSchema files = .error .noFields := by
        simp [inferSchema, heq, hie]
      refine ⟨?_, ?_, ?_⟩
      · constructor
        · rintro ⟨s, hs⟩
          rw [hinf] at hs
          exact absurd hs (by simp)
        · rintro ⟨_, hne⟩
          exact absurd hobs hne
      · exact ⟨fun _ => ⟨hnm, hobs⟩, fun _ => hinf⟩
      · intro i
        constructor
        · intro hp
          rw [hinf] at hp
          injection hp with hp
          exact absurd hp (by simp)
        · rintro ⟨hi, _⟩
          exact absurd (List.getElem?_mem hi) hnm
    · have hie : (addFields [] (observedFields files)).isEmpty = false := by
        rw [Bool.eq_false_iff]
        intro h
        exact hobs ((addFields_nil_iff _).mp (List.isEmpty_iff.mp h))
      have hinf : inferSchema files =
          .ok ((addFields [] (observedFields files)).map
            (fun name => (name, (scanFiles name files).getD defaultEntry))) := by
        simp [inferSchema, heq, hie]
      refine ⟨?_, ?_, ?_⟩
      · exact ⟨fun _ => ⟨hnm, hobs⟩, fun _ => ⟨_, hinf⟩⟩
      · constructor
        · intro h
          rw [hinf] at h
          exact absurd h (by simp)
        · rintro ⟨_, h⟩
          exact absurd h hobs
      · intro i
        constructor
        · intro h
          rw [hinf] at h
          exact absurd h (by simp)
        · rintro ⟨hi, _⟩
          exact absurd (List.getElem?_mem hi) hnm
  · have hinf : inferSchema files = .error (.parseError j) := by
      simp only [Nat.zero_add] at heq
      simp [inferSchema, heq]
    have hnonmem : none ∈ files := List.getElem?_mem hj
    refine ⟨?_, ?_, ?_⟩
    · constructor
      · rintro ⟨s, hs⟩
        rw [hinf] at hs
        exact absurd hs (by simp)
      · rintro ⟨hnm, _⟩
        exact absurd hnonmem hnm
    · constructor
      · intro h
        rw [hinf] at h
        injection h with h
        exact absurd h (by simp)
      · rintro ⟨hnm, _⟩
        exact absurd hnonmem hnm
    · intro i
      constructor
      · intro h
        rw [hinf] at h
        injection h with h
        injection h with h
        subst h
        exact ⟨hj, hfirst⟩
      · rintro ⟨hi, hifirst⟩
        rcases Nat.lt_trichotomy i j with hlt | hE | hgt
        · exact absurd hi (hfirst i hlt)
        · subst hE
          exact hinf
        · exact absurd hj (hifirst j hgt)

theorem c2_witness :
    inferSchema [(some [] : JFile)] = .error .noFields :=
  (c2_inference_failure_iff [some []]).2.1.mpr ⟨by simp, by rfl⟩

/-- C5: the inferred schema's field-name list is exactly the
first-encounter-ordered union of the observed field names, without
duplicates; a name is in the schema exactly when it was observed. -/
theorem c5_schema_field_set (files : List JFile) (s : Schema)
    (hok : inferSchema files = .ok s) :
    s.map Prod.fst = firstEncounter (observedFields files)
    ∧ (s.map Prod.fst).Nodup
    ∧ (∀ k, k ∈ s.map Prod.fst ↔ k ∈ observedFields files)
    ∧ (∀ k, k ∈ observedFields files → (s.map Prod.fst).count k = 1) := by
  cases hc : collectPass1 files 0 [] with
  | error err => simp [inferSchema, hc] at hok
  | ok allFields =>
      simp only [inferSchema, hc] at hok
      by_cases he : allFields.isEmpty
      · simp [he] at hok
      · rw [if_neg he] at hok
        injection hok with hok
        subst hok
        rcases collectPass1_cases files 0 [] with ⟨_, heq⟩ | ⟨j, _, _, heq⟩
        · rw [hc] at heq
          injection heq with heq
          have hfields : allFields = firstEncounter (observedFields files) := by
            rw [heq]
            rfl
          have hkeys : (allFields.map
              (fun name => (name, (scanFiles name files).getD defaultEntry))).map
                Prod.fst = allFields := by
            rw [List.map_map]
            exact List.map_id _
          rw [hkeys]
          have hmemiff : ∀ k, k ∈ allFields ↔ k ∈ observedFields files := by
            intro k
            rw [hfields]
            have := mem_addFields (observedFields files) [] k
            simpa [firstEncounter, addFields] using this
          have hnd : allFields.Nodup := by
            rw [hfields]
            exact nodup_addFields (observedFields files) [] List.nodup_nil
          exact ⟨hfields, hnd, hmemiff,
            fun k hk => List.count_eq_one_of_mem hnd ((hmemiff k).mpr hk)⟩
        · rw [hc] at heq
          exact absurd heq (by simp)

theorem c5_witness :
    sampleSchema.map Prod.fst = firstEncounter (observedFields sampleFiles)
    ∧ (sampleSchema.map Prod.fst).count "score" = 1 :=
  ⟨(c5_schema_field_set sampleFiles sampleSchema sample_ok).1,
   (c5_schema_field_set sampleFiles sampleSchema sample_ok).2.2.2 "score" (by decide)⟩

/-! ### Schema Validator (claim C6) -/

/-- C6: with validation disabled the validator returns `true` with no
comparison or warning; enabled, it accepts a batch exactly when no record
has missing or extra field names, emitting the warning lines naming the
offending fields of each violating record. -/
theorem c6_validation (opts : Options) (schemaKeys : List String)
    (records : List JsRecord) :
    (opts.validate = false → validateSchema opts schemaKeys records = (true, []))
    ∧ (opts.validate = true →
        (((validateSchema opts schemaKeys records).1 = true) ↔
          ∀ r ∈ records, missingOf schemaKeys r = [] ∧ extraOf schemaKeys r = [])
        ∧ (validateSchema opts schemaKeys records).2 =
            records.flatMap (recordWarnings schemaKeys)) := by
  constructor
  · intro h
    simp [validateSchema, h]
  · intro h
    have hv : validateSchema opts schemaKeys records =
        validateRecords schemaKeys records := by
      simp [validateSchema, h]
    rw [hv]
    clear hv h
    induction records with
    | nil => simp [validateRecords]
    | cons r rest ih =>
        constructor
        · simp only [validateRecords, Bool.and_eq_true, List.forall_mem_cons,
            List.isEmpty_iff, ih.1]
        · simp only [validateRecords, List.flatMap_cons, ih.2]

theorem c6_witness :
    (validateSchema ⟨true, 1000⟩ ["id", "name"] [[("id", JsValue.num 1)]]).1 = false := by
  have h := ((c6_validation ⟨true, 1000⟩ ["id", "name"]
    [[("id", JsValue.num 1)]]).2 rfl).1
  cases hb : (validateSchema ⟨true, 1000⟩ ["id", "name"]
      [[("id", JsValue.num 1)]]).1 with
  | false => rfl
  | true =>
      rw [hb] at h
      have hall := h.mp rfl [("id", JsValue.num 1)] (by simp)
      have : missingOf ["id", "name"] [("id", JsValue.num 1)] = ["name"] := rfl
      rw [this] at hall
      exact absurd hall.1 (by simp)

/-! ### Batch Writer Pipeline lemmas (claims C7 and C8) -/

theorem stepRecord_mat (B : Nat) (st : PipeState) (r : JsRecord) :
    mat (stepRecord B st r) = mat st ++ [transformRecord r] := by
  unfold stepRecord mat writeBatch
  by_cases h : B ≤ st.batch.length + 1 <;> simp [h]

theorem foldl_stepRecord_mat (B : Nat) (recs : List JsRecord) (st : PipeState) :
    mat (recs.foldl (stepRecord B) st) = mat st ++ recs.map transformRecord := by
  induction recs generalizing st with
  | nil => simp
  | cons r rest ih =>
      rw [List.foldl_cons, ih, stepRecord_mat, List.map_cons]
      simp

theorem processFile_mat (opts : Options) (schemaKeys : List String)
    (st : PipeState) (f : JFile) :
    mat (processFile opts schemaKeys st f) =
      mat st ++ (if admitsFile opts schemaKeys f then
        (f.getD []).map transformRecord else []) := by
  cases f with
  | none => simp [processFile, admitsFile]
  | some recs =>
      by_cases hval : (validateSchema opts schemaKeys recs).1
      · simp [processFile, admitsFile, hval, foldl_stepRecord_mat]
      · simp [processFile, admitsFile, hval]

theorem foldl_processFile_mat (opts : Options) (schemaKeys : List String)
    (files : List JFile) (st : PipeState) :
    mat (files.foldl (processFile opts schemaKeys) st) =
      mat st ++ (admittedRecords opts schemaKeys files).map transformRecord := by
  induction files generalizing st with
  | nil => simp [admittedRecords]
  | cons f rest ih =>
      rw [List.foldl_cons, ih, processFile_mat]
      by_cases hf : admitsFile opts schemaKeys f
      · simp [admittedRecords, List.filter_cons, hf]
      · simp [admittedRecords, List.filter_cons, hf]

/-- C7: the rows the sink receives are exactly the transformed records of
the admitted files (those that parse and pass validation), in
file-then-record order — a file that fails to parse or fails validation
contributes none of its records, and the other files' records all go
through. -/
theorem c7_file_skip_all_or_nothing (opts : Options)
    (schemaKeys : List String) (files : List JFile) :
    (processFiles opts schemaKeys files).sink =
      (admittedRecords opts schemaKeys files).map transformRecord := by
  unfold processFiles
  have hm := foldl_processFile_mat opts schemaKeys files
    { batch := [], sink := [], flushes := [], processedCount := 0 }
  set final := files.foldl (processFile opts schemaKeys)
    { batch := [], sink := [], flushes := [], processedCount := 0 } with hfinal
  simp only [mat, List.append_nil, List.nil_append] at hm
  by_cases hb : final.batch.isEmpty
  · have : final.batch = [] := List.isEmpty_iff.mp hb
    simp only [hb, if_true]
    rw [← hm, this, List.append_nil]
  · simp only [hb, if_false, writeBatch]
    exact hm

theorem stepRecord_flush (B : Nat) (st : PipeState) (r : JsRecord)
    (h : B ≤ st.batch.length + 1) :
    stepRecord B st r =
      { batch := [],
        sink := st.sink ++ (st.batch ++ [transformRecord r]),
        flushes := st.flushes ++ [st.batch.length + 1],
        processedCount := st.processedCount + (st.batch.length + 1) } := by
  unfold stepRecord writeBatch
  rw [if_pos (by simpa using h)]
  simp

theorem stepRecord_noflush (B : Nat) (st : PipeState) (r : JsRecord)
    (h : ¬ B ≤ st.batch.length + 1) :
    stepRecord B st r = { st with batch := st.batch ++ [transformRecord r] } := by
  unfold stepRecord
  rw [if_neg (by simpa using h)]

theorem stepRecord_inv (B : Nat) (st : PipeState) (r : JsRecord)
    (h : BatchInv B st) : BatchInv B (stepRecord B st r) := by
  obtain ⟨hlt, hfl, hsk, hpc⟩ := h
  by_cases hflush : B ≤ st.batch.length + 1
  · have he : st.batch.length + 1 = B := by omega
    rw [stepRecord_flush B st r hflush]
    refine ⟨?_, ?_, ?_, ?_⟩
    · show ([] : List JsRecord).length < B
      simp only [List.length_nil]
      omega
    · show st.flushes ++ [st.batch.length + 1] =
        List.replicate (st.flushes ++ [st.batch.length + 1]).length B
      have hrep : st.flushes ++ [st.batch.length + 1] =
          List.replicate (st.flushes.length + 1) B := by
        rw [he, List.replicate_succ', ← hfl]
      rw [hrep]
      simp
    · show (st.sink ++ (st.batch ++ [transformRecord r])).length =
        B * (st.flushes ++ [st.batch.length + 1]).length
      simp only [List.length_append, List.length_cons, List.length_nil]
      rw [hsk, Nat.mul_succ]
      omega
    · show st.processedCount + (st.batch.length + 1) =
        (st.sink ++ (st.batch ++ [transformRecord r])).length
      simp only [List.length_append, List.length_cons, List.length_nil]
      omega
  · rw [stepRecord_noflush B st r hflush]
    refine ⟨?_, hfl, hsk, hpc⟩
    show (st.batch ++ [transformRecord r]).length < B
    simp only [List.length_append, List.length_cons, List.length_nil]
    omega

theorem foldl_stepRecord_inv (B : Nat) (recs : List JsRecord) (st : PipeState)
    (h : BatchInv B st) : BatchInv B (recs.foldl (stepRecord B) st) := by
  induction recs generalizing st with
  | nil => exact h
  | cons r rest ih => exact ih _ (stepRecord_inv B st r h)

theorem processFile_inv (opts : Options) (schemaKeys : List String)
    (st : PipeState) (f : JFile) (h : BatchInv opts.batchSize st) :
    BatchInv opts.batchSize (processFile opts schemaKeys st f) := by
  cases f with
  | none => exact h
  | some recs =>
      unfold processFile
      by_cases hval : (validateSchema opts schemaKeys recs).1
      · simp only [hval, if_pos]
        exact foldl_stepRecord_inv _ recs st h
      · simp only [hval]
        exact h

theorem foldl_processFile_inv (opts : Options) (schemaKeys : List String)
    (files : List JFile) (st : PipeState) (h : BatchInv opts.batchSize st) :
    BatchInv opts.batchSize (files.foldl (processFile opts schemaKeys) st) := by
  induction files generalizing st with
  | nil => exact h
  | cons f rest ih => exact ih _ (processFile_inv opts schemaKeys st f h)

/-- C8: with batch size `B ≥ 1`, a run over `N` admitted records performs
exactly `ceil(N / B)` flushes, the run counter ends at exactly `N`, and the
counter equals the sum of the flushed batch sizes (it changes nowhere
else). -/
theorem c8_batch_accounting (opts : Options) (schemaKeys : List String)
    (files : List JFile) (hB : 1 ≤ opts.batchSize) :
    (processFiles opts schemaKeys files).flushes.length =
      ((admittedRecords opts schemaKeys files).length + opts.batchSize - 1) /
        opts.batchSize
    ∧ (processFiles opts schemaKeys files).processedCount =
        (admittedRecords opts schemaKeys files).length
    ∧ (processFiles opts schemaKeys files).flushes.sum =
        (processFiles opts schemaKeys files).processedCount := by
  set B := opts.batchSize with hBeq
  set N := (admittedRecords opts schemaKeys files).length with hN
  set st0 : PipeState := { batch := [], sink := [], flushes := [], processedCount := 0 }
    with hst0
  have hinv0 : BatchInv B st0 := by
    refine ⟨by simpa [hst0] using hB, ?_, ?_, ?_⟩ <;> simp [hst0]
  have hinv := foldl_processFile_inv opts schemaKeys files st0 hinv0
  have hmat := foldl_processFile_mat opts schemaKeys files st0
  set final := files.foldl (processFile opts schemaKeys) st0 with hfinal
  obtain ⟨hlt, hfl, hsk, hpc⟩ := hinv
  have hNsum : final.sink.length + final.batch.length = N := by
    have hlen := congrArg List.length hmat
    simp only [mat, hst0, List.length_append, List.length_map, List.length_nil] at hlen
    omega
  set k := final.flushes.length with hk
  have hsum : final.flushes.sum = B * k := by
    rw [hfl]
    simp [Nat.mul_comm]
  unfold processFiles
  rw [← hfinal]
  by_cases hb : final.batch.isEmpty
  · have hbe : final.batch = [] := List.isEmpty_iff.mp hb
    have hNk : N = B * k := by
      rw [← hNsum, hbe, hsk]
      simp
    simp only [hb, if_pos]
    refine ⟨?_, ?_, ?_⟩
    · rw [← hk, hNk]
      have h1 : B * k + B - 1 = B * k + (B - 1) := by omega
      rw [h1, Nat.mul_add_div (by omega), Nat.div_eq_of_lt (by omega)]
      omega
    · rw [hpc, hsk, ← hNk]
    · rw [hsum, hpc, hsk, hk]
  · have hbne : final.batch ≠ [] := fun h => by simp [h] at hb
    have hrpos : 0 < final.batch.length := List.length_pos.mpr hbne
    have hNk : N = B * k + final.batch.length := by
      rw [← hNsum, hsk]
    simp only [hb, if_neg, Bool.not_eq_true, writeBatch]
    refine ⟨?_, ?_, ?_⟩
    · simp only [List.length_append, List.length_cons, List.length_nil]
      rw [← hk, hNk]
      have h1 : B * k + final.batch.length + B - 1 =
          B * k + (final.batch.length + B - 1) := by omega
      rw [h1, Nat.mul_add_div (by omega)]
      have h2 : (final.batch.length + B - 1) / B = 1 :=
        Nat.div_eq_of_lt_le (by omega) (by simp only [Nat.succ_mul]; omega)
      omega
    · simp only [List.length_append, hpc, hsk, hNk]
    · simp only [List.sum_append, List.sum_cons, List.sum_nil, hsum, hpc, hsk]
      omega

theorem c8_witness :
    (processFiles ⟨false, 2⟩ ["a"] pipeFiles).flushes.length =
      ((admittedRecords ⟨false, 2⟩ ["a"] pipeFiles).length + 2 - 1) / 2
    ∧ (processFiles ⟨false, 2⟩ ["a"] pipeFiles).processedCount =
      (admittedRecords ⟨false, 2⟩ ["a"] pipeFiles).length :=
  ⟨(c8_batch_accounting ⟨false, 2⟩ ["a"] pipeFiles (by decide)).1,
   (c8_batch_accounting ⟨false, 2⟩ ["a"] pipeFiles (by decide)).2.1⟩

/-! ### Close/masking behaviour (claim C10) -/

/-- C10 counterexample: with batch size 1, the first `appendRow` call
rejects — an earlier processing failure (`sinkAppend 0`) is pending when the
`finally` clause runs — and `close()` also rejects; the run propagates the
close failure, not the earlier processing failure, so a close failure does
mask the earlier error. -/
theorem c10_close_masks_counterexample :
    processBody sinkAllFail ⟨false, 1⟩ ["a"] oneRecordFile =
      .error (.sinkAppend 0)
    ∧ (runProcessFiles sinkAllFail ⟨false, 1⟩ ["a"] oneRecordFile).result =
      .error .sinkClose
    ∧ PipeError.sinkClose ≠ PipeError.sinkAppend 0 :=
  ⟨rfl, rfl, by decide⟩

/-- C10 as amended: the sink close step always runs after processing,
whatever the body's outcome; when close succeeds the body's outcome
(including any earlier processing failure) is what propagates; but when
close fails, the close failure is propagated, replacing any earlier
processing failure (JS `try`/`finally` semantics). -/
theorem c10_close_always_runs (sb : SinkBehavior) (opts : Options)
    (schemaKeys : List String) (files : List JFile) :
    (runProcessFiles sb opts schemaKeys files).closeCalled = true
    ∧ (sb.closeFails = false →
        (runProcessFiles sb opts schemaKeys files).result =
          (processBody sb opts schemaKeys files).map (fun _ => ()))
    ∧ (sb.closeFails = true →
        (runProcessFiles sb opts schemaKeys files).result =
          .error .sinkClose) := by
  refine ⟨rfl, ?_, ?_⟩ <;> intro h <;> simp [runProcessFiles, h]

theorem c10_witness :
    (runProcessFiles sinkOk ⟨false, 1⟩ ["a"] oneRecordFile).result =
      (processBody sinkOk ⟨false, 1⟩ ["a"] oneRecordFile).map (fun _ => ()) :=
  (c10_close_always_runs sinkOk ⟨false, 1⟩ ["a"] oneRecordFile).2.1 rfl


end JPM
